import Mathlib

/-!
Verification of the chunking / retrieval core of the `neuralflake` repository.

Conventions of the shallow embedding:
- a Python `str` is a `List Char`, a Python `int` is an `Int`;
- a Python function that may raise an uncaught exception returns an `Option`
  (`none` = the call raised);
- external collaborators (the OpenAI client, the Chroma collection) are
  parameters of the embedded functions, modelled as oracles returning
  `Except Unit` values (`Except.error ()` = the collaborator raised).
-/

/-- Python `sep.join xs` (`str.join`): concatenate the pieces with `sep`
between two consecutive pieces. -/
def joinSep (sep : List Char) : List (List Char) → List Char
  | [] => []
  | [x] => x
  | x :: y :: t => x ++ sep ++ joinSep sep (y :: t)

/-- Scanner of Python `text.split(sep)` for a non-empty `sep`: walk the text,
and at each position either consume a full occurrence of `sep` (closing the
current piece) or move one character into the accumulator.  `fuel` only bounds
the recursion; the out-of-fuel branch is unreachable when `s.length ≤ fuel`. -/
def splitGoF (sep : List Char) : Nat → List Char → List Char → List (List Char)
  | _, [], acc => [acc.reverse]
  | 0, s, acc => [acc.reverse ++ s]
  | fuel + 1, c :: rest, acc =>
    if !sep.isEmpty && sep.isPrefixOf (c :: rest) then
      acc.reverse :: splitGoF sep fuel (rest.drop (sep.length - 1)) []
    else
      splitGoF sep fuel rest (c :: acc)

/-- Python `s.split(sep)` for a non-empty separator (`str.split` with an
explicit separator keeps empty pieces between adjacent occurrences). -/
def pySplit (s sep : List Char) : List (List Char) :=
  splitGoF sep s.length s []

/-- Python slice `s[a:b]` for a start `a ≥ 0` and an arbitrary integer end
`b` (a negative `b` counts from the end of the list, as in Python). -/
def pySlice (s : List Char) (a : Nat) (b : Int) : List Char :=
  (s.drop a).take
    ((if b < 0 then ((s.length : Int) + b).toNat else min b.toNat s.length) - a)

/-- The `for i in range(0, len(text), stride)` loop of `_chunk_text_by_chars`
(src/data_agent/rag/chunking.py lines 107-117): emit
`text[i : min(i + chunk_size, len(text))]` and stop once a window reaches the
end of the text, or once the next index falls outside the range.  `fuel` only
bounds the recursion; the caller passes `text.length`, which is enough fuel
whenever the stride is positive. -/
def charLoopF (text : List Char) (size : Int) (stride : Nat) : Nat → Nat → List (List Char)
  | 0, _ => []
  | fuel + 1, i =>
    let chunkEnd : Int := min ((i : Int) + size) (text.length : Int)
    let chunk := pySlice text i chunkEnd
    if chunkEnd = (text.length : Int) then [chunk]
    else if (text.length : Int) ≤ (i : Int) + (stride : Int) then [chunk]
    else chunk :: charLoopF text size stride fuel (i + stride)

/-- The stride computation of `_chunk_text_by_chars`
(src/data_agent/rag/chunking.py lines 99-104): `chunk_size - chunk_overlap`,
replaced by the floor division `chunk_size // 2` when not positive. -/
def strideFix (chunk_size chunk_overlap : Int) : Int :=
  if chunk_size - chunk_overlap ≤ 0 then Int.fdiv chunk_size 2
  else chunk_size - chunk_overlap

/-- `_chunk_text_by_chars` (src/data_agent/rag/chunking.py lines 76-117).
`none` models the `ValueError` that Python's `range(0, n, 0)` raises when the
corrected stride `chunk_size // 2` is still zero; a negative corrected stride
makes `range` empty, so the function returns an empty list of chunks. -/
def chunk_text_by_chars (text : List Char) (chunk_size chunk_overlap : Int) :
    Option (List (List Char)) :=
  if text = [] then some []
  else if (text.length : Int) ≤ chunk_size then some [text]
  else if strideFix chunk_size chunk_overlap = 0 then none
  else if strideFix chunk_size chunk_overlap < 0 then some []
  else some (charLoopF text chunk_size (strideFix chunk_size chunk_overlap).toNat text.length 0)

/-- The backward walk of `_estimate_chunks_for_overlap`
(src/data_agent/rag/chunking.py lines 139-152), over the reversed list of
accumulated pieces: `taken` pieces have been consumed so far and `total` is
their joined size; stop as soon as `total` reaches the requested overlap. -/
def estGo (sep : List Char) (overlap : Int) : List (List Char) → Int → Nat → Nat
  | [], _, taken => taken
  | c :: rest, total, taken =>
    let total1 := total + (if taken = 0 then 0 else (sep.length : Int)) + (c.length : Int)
    if overlap ≤ total1 then taken + 1 else estGo sep overlap rest total1 (taken + 1)

/-- `_estimate_chunks_for_overlap` (src/data_agent/rag/chunking.py
lines 120-152): how many trailing pieces to keep to reach `overlap` joined
characters; all of them if the overlap cannot be met. -/
def estimate_chunks_for_overlap (chunks : List (List Char)) (overlap : Int)
    (sep : List Char) : Nat :=
  if chunks = [] then 0 else estGo sep overlap chunks.reverse 0 0

/-- The loop state of `chunk_text`'s separator mode: finished chunks, the
pieces of the chunk being accumulated, and the running size
(`current_size`). -/
structure AccState where
  chunks : List (List Char)
  cur : List (List Char)
  curSize : Int
deriving DecidableEq

/-- One iteration of the `for split in splits` loop of `chunk_text`
(src/data_agent/rag/chunking.py lines 43-67): skip empty pieces; close the
current chunk when appending would exceed `chunk_size`, keeping a trailing
subset of pieces as overlap; then append the piece. -/
def accStep (sep : List Char) (chunk_size chunk_overlap : Int) (st : AccState)
    (split : List Char) : AccState :=
  if split = [] then st
  else
    let splitSize : Int :=
      if st.cur = [] then (split.length : Int) else (sep.length : Int) + (split.length : Int)
    let st1 :=
      if st.cur ≠ [] ∧ chunk_size < st.curSize + splitSize then
        let keep := estimate_chunks_for_overlap st.cur chunk_overlap sep
        let newCur := st.cur.drop (st.cur.length - keep)
        { chunks := st.chunks ++ [joinSep sep st.cur]
          cur := newCur
          curSize :=
            (newCur.map (fun s => (sep.length : Int) + (s.length : Int))).sum
              - (sep.length : Int) }
      else st
    { chunks := st1.chunks, cur := st1.cur ++ [split], curSize := st1.curSize + splitSize }

/-- The separator mode of `chunk_text` (src/data_agent/rag/chunking.py
lines 39-73): fold the loop over the pieces and emit the final non-empty
chunk. -/
def sepMode (sep : List Char) (chunk_size chunk_overlap : Int)
    (splits : List (List Char)) : List (List Char) :=
  let st := splits.foldl (accStep sep chunk_size chunk_overlap) ⟨[], [], 0⟩
  st.chunks ++ (if st.cur = [] then [] else [joinSep sep st.cur])

/-- `chunk_text` (src/data_agent/rag/chunking.py lines 11-73).  `none` models
an uncaught exception: Python `str.split` raises `ValueError` on an empty
separator, and the character fallback raises when its corrected stride is
zero. -/
def chunk_text (text : List Char) (chunk_size chunk_overlap : Int)
    (separator : List Char) : Option (List (List Char)) :=
  if text = [] then some []
  else if separator = [] then none
  else
    let splits := pySplit text separator
    if splits.length = 1 then chunk_text_by_chars text chunk_size chunk_overlap
    else some (sepMode separator chunk_size chunk_overlap splits)

/-- Claim C1: the code, evaluated at the failing inputs.  For
`chunk_text "ab" 0 0 "\n"` the separator is absent, the text is longer than
the chunk size, the stride `0 - 0` is corrected to `0 // 2 = 0`, and
`range(0, 2, 0)` raises `ValueError` — the call crashes instead of clamping,
contradicting the claim; `chunk_size = 1` with `chunk_overlap = 1` crashes the
same way. -/
theorem chunk_text_stride_zero_raises :
    chunk_text ['a', 'b'] 0 0 ['\n'] = none ∧
      chunk_text ['a', 'b'] 1 1 ['\n'] = none := by
  constructor <;> rfl

/-- The window slice `text[i : min(i + size, len(text))]` of the stride loop
equals `take size.toNat` of `drop i`. -/
theorem pySlice_window (text : List Char) (i : Nat) (size : Int) (hs : 0 ≤ size) :
    pySlice text i (min ((i : Int) + size) (text.length : Int))
      = (text.drop i).take size.toNat := by
  have hlen : (text.drop i).length = text.length - i := List.length_drop _ _
  unfold pySlice
  rcases min_cases ((i : Int) + size) ((text.length : Int)) with ⟨he, hle⟩ | ⟨he, hle⟩
  · rw [he, if_neg (by omega)]
    have h2 : ((i : Int) + size).toNat = i + size.toNat := by omega
    rw [h2, min_eq_left (by omega)]
    congr 1
    omega
  · rw [he, if_neg (by omega)]
    have h2 : text.length - i ≤ size.toNat := by omega
    rw [Int.toNat_natCast, min_self]
    rw [List.take_of_length_le (by omega), List.take_of_length_le (by omega)]

/-- Unfolding of one loop iteration of `charLoopF`. -/
theorem charLoopF_succ (text : List Char) (size : Int) (stride : Nat) (fuel i : Nat) :
    charLoopF text size stride (fuel + 1) i =
      if min ((i : Int) + size) (text.length : Int) = (text.length : Int) then
        [pySlice text i (min ((i : Int) + size) (text.length : Int))]
      else if (text.length : Int) ≤ (i : Int) + (stride : Int) then
        [pySlice text i (min ((i : Int) + size) (text.length : Int))]
      else
        pySlice text i (min ((i : Int) + size) (text.length : Int))
          :: charLoopF text size stride fuel (i + stride) := rfl

/-- Full description of the character-stride loop when the stride is positive
and at most the window size: every emitted chunk is the window
`take size` of `drop (i + k * stride)`, the loop emits at least one chunk,
every text position from `i` on is covered by some window, and the final
chunk is a suffix of the text. -/
theorem charLoopF_spec (text : List Char) (size : Int) (stride : Nat)
    (hstr : 0 < stride) (hss : (stride : Int) ≤ size) :
    ∀ fuel i, i < text.length → text.length - i ≤ fuel →
      ∃ cs, charLoopF text size stride fuel i = cs ∧ cs ≠ [] ∧
        (∀ k, ∀ hk : k < cs.length, cs.get ⟨k, hk⟩
            = (text.drop (i + k * stride)).take size.toNat) ∧
        (∀ j, i ≤ j → j < text.length →
          ∃ k, k < cs.length ∧ i + k * stride ≤ j ∧ j < i + k * stride + size.toNat) ∧
        (∃ l, cs.getLast? = some l ∧ l <:+ text) := by
  intro fuel
  induction fuel with
  | zero => intro i h1 h2; omega
  | succ fuel ih =>
    intro i h1 h2
    have hsize : 0 < size := lt_of_lt_of_le (by exact_mod_cast hstr) hss
    have hsn : stride ≤ size.toNat := by omega
    have hchunk : pySlice text i (min ((i : Int) + size) (text.length : Int))
        = (text.drop i).take size.toNat := pySlice_window text i size (le_of_lt hsize)
    by_cases hend : min ((i : Int) + size) (text.length : Int) = (text.length : Int)
    · have hbound : (text.length : Int) ≤ (i : Int) + size := by
        rcases min_cases ((i : Int) + size) ((text.length : Int)) with ⟨he, hle⟩ | ⟨he, hle⟩
        · omega
        · omega
      have hboundN : text.length ≤ i + size.toNat := by omega
      refine ⟨[(text.drop i).take size.toNat], ?_, by simp, ?_, ?_, ?_⟩
      · rw [charLoopF_succ, if_pos hend, hchunk]
      · intro k hk
        have hk0 : k = 0 := by simpa using Nat.lt_one_iff.mp (by simpa using hk)
        subst hk0
        simp
      · intro j hij hjn
        exact ⟨0, by simp, by simpa using hij, by simpa using lt_of_lt_of_le hjn hboundN⟩
      · refine ⟨text.drop i, ?_, List.drop_suffix _ _⟩
        have : (text.drop i).take size.toNat = text.drop i :=
          List.take_of_length_le (by rw [List.length_drop]; omega)
        simp [this]
    · have hlt : (i : Int) + size < (text.length : Int) := by
        rcases min_cases ((i : Int) + size) ((text.length : Int)) with ⟨he, hle⟩ | ⟨he, hle⟩
        · omega
        · exact absurd he hend
      by_cases hnext : (text.length : Int) ≤ (i : Int) + (stride : Int)
      · exfalso; omega
      · have h1' : i + stride < text.length := by omega
        have h2' : text.length - (i + stride) ≤ fuel := by omega
        obtain ⟨cs1, heq1, hne1, hget1, hcov1, hlast1⟩ := ih (i + stride) h1' h2'
        refine ⟨(text.drop i).take size.toNat :: cs1, ?_, by simp, ?_, ?_, ?_⟩
        · rw [charLoopF_succ, if_neg hend, if_neg hnext, hchunk, heq1]
        · intro k hk
          match k with
          | 0 => simp
          | Nat.succ k =>
            have hk1 : k < cs1.length := by simpa using hk
            have hmul : i + (k + 1) * stride = (i + stride) + k * stride := by ring
            rw [List.get_cons_succ, hget1 k hk1, hmul]
        · intro j hij hjn
          by_cases hj : i + stride ≤ j
          · obtain ⟨k, hk1, hk2, hk3⟩ := hcov1 j hj hjn
            refine ⟨k + 1, by simpa using Nat.succ_lt_succ hk1, ?_, ?_⟩
            · have hmul : i + (k + 1) * stride = (i + stride) + k * stride := by ring
              omega
            · have hmul : i + (k + 1) * stride = (i + stride) + k * stride := by ring
              omega
          · exact ⟨0, by simp, by simpa using hij, by simp; omega⟩
        · obtain ⟨l, hl1, hl2⟩ := hlast1
          refine ⟨l, ?_, hl2⟩
          match cs1, hne1 with
          | b :: t, _ => rw [List.getLast?_cons_cons]; exact hl1

/-- Claim C4: for a text longer than `chunk_size`, with `chunk_size > 0` and
`0 ≤ chunk_overlap < chunk_size`, the character-stride algorithm emits the
windows `text[k*stride : k*stride + chunk_size]` for the stride
`chunk_size - chunk_overlap` (so every chunk has length at most `chunk_size`),
covers every character position of the text, and its last chunk is a suffix of
the text (it ends exactly at the end of the text); a text of at most
`chunk_size` characters is returned as the single chunk `[text]`. -/
theorem chunk_text_by_chars_correct (text : List Char) (size ov : Int)
    (h1 : 0 < size) (h2 : 0 ≤ ov) (h3 : ov < size) :
    (size < (text.length : Int) →
      ∃ cs, chunk_text_by_chars text size ov = some cs ∧ cs ≠ [] ∧
        (∀ c ∈ cs, (c.length : Int) ≤ size) ∧
        (∀ k, ∀ hk : k < cs.length,
          cs.get ⟨k, hk⟩ = (text.drop (k * (size - ov).toNat)).take size.toNat) ∧
        (∀ j, j < text.length → ∃ k, k < cs.length ∧
          k * (size - ov).toNat ≤ j ∧ j < k * (size - ov).toNat + size.toNat) ∧
        (∃ l, cs.getLast? = some l ∧ l <:+ text)) ∧
    ((text.length : Int) ≤ size → text ≠ [] →
      chunk_text_by_chars text size ov = some [text]) := by
  constructor
  · intro hlen
    have htne : text ≠ [] := by
      intro h
      subst h
      simp at hlen
      omega
    have hsf : strideFix size ov = size - ov := by
      unfold strideFix
      rw [if_neg (by omega)]
    have heq : chunk_text_by_chars text size ov
        = some (charLoopF text size (size - ov).toNat text.length 0) := by
      unfold chunk_text_by_chars
      rw [if_neg htne, if_neg (not_le.mpr hlen), hsf, if_neg (by omega),
        if_neg (by omega)]
    have h0 : 0 < text.length := by omega
    obtain ⟨cs, heqL, hne, hget, hcov, hlast⟩ :=
      charLoopF_spec text size (size - ov).toNat (by omega) (by omega)
        text.length 0 h0 (le_refl _)
    refine ⟨cs, by rw [heq, heqL], hne, ?_, ?_, ?_, hlast⟩
    · intro c hc
      obtain ⟨⟨k, hk⟩, hck⟩ := List.mem_iff_get.mp hc
      have hlc : c.length ≤ size.toNat := by
        rw [← hck, hget k hk]
        simp
      omega
    · intro k hk
      have := hget k hk
      simpa using this
    · intro j hj
      obtain ⟨k, hk1, hk2, hk3⟩ := hcov j (Nat.zero_le j) hj
      exact ⟨k, hk1, by omega, by omega⟩
  · intro hle hne
    unfold chunk_text_by_chars
    rw [if_neg hne, if_pos hle]

/-- Witness for claim C4 at `text = "abcde"`, `chunk_size = 2`,
`chunk_overlap = 1`. -/
theorem chunk_text_by_chars_correct_w :
    ∃ cs, chunk_text_by_chars ['a', 'b', 'c', 'd', 'e'] 2 1 = some cs ∧ cs ≠ [] ∧
      (∀ c ∈ cs, (c.length : Int) ≤ 2) ∧
      (∀ k, ∀ hk : k < cs.length,
        cs.get ⟨k, hk⟩
          = ((['a', 'b', 'c', 'd', 'e'] : List Char).drop
              (k * ((2 : Int) - 1).toNat)).take (2 : Int).toNat) ∧
      (∀ j, j < (['a', 'b', 'c', 'd', 'e'] : List Char).length → ∃ k, k < cs.length ∧
        k * ((2 : Int) - 1).toNat ≤ j ∧ j < k * ((2 : Int) - 1).toNat + (2 : Int).toNat) ∧
      (∃ l, cs.getLast? = some l ∧ l <:+ ['a', 'b', 'c', 'd', 'e']) :=
  (chunk_text_by_chars_correct ['a', 'b', 'c', 'd', 'e'] 2 1 (by decide) (by decide)
    (by decide)).1 (by decide)

/-- `joinSep` of a cons with a non-empty tail inserts one separator. -/
theorem joinSep_cons_of_ne_nil (sep x : List Char) (l : List (List Char)) (h : l ≠ []) :
    joinSep sep (x :: l) = x ++ sep ++ joinSep sep l := by
  match l, h with
  | y :: t, _ => rfl

/-- Unfolding of the split scanner on the empty text. -/
theorem splitGoF_nil (sep : List Char) (fuel : Nat) (acc : List Char) :
    splitGoF sep fuel [] acc = [acc.reverse] := by
  cases fuel <;> rfl

/-- Unfolding of one step of the split scanner. -/
theorem splitGoF_succ (sep : List Char) (fuel : Nat) (c : Char) (rest acc : List Char) :
    splitGoF sep (fuel + 1) (c :: rest) acc =
      if !sep.isEmpty && sep.isPrefixOf (c :: rest) then
        acc.reverse :: splitGoF sep fuel (rest.drop (sep.length - 1)) []
      else splitGoF sep fuel rest (c :: acc) := rfl

/-- The split scanner always produces at least one piece. -/
theorem splitGoF_ne_nil (sep : List Char) :
    ∀ fuel s acc, splitGoF sep fuel s acc ≠ [] := by
  intro fuel
  induction fuel with
  | zero =>
    intro s acc
    cases s with
    | nil => simp [splitGoF_nil]
    | cons c rest => simp [splitGoF]
  | succ fuel ih =>
    intro s acc
    cases s with
    | nil => simp [splitGoF_nil]
    | cons c rest =>
      rw [splitGoF_succ]
      by_cases hb : (!sep.isEmpty && sep.isPrefixOf (c :: rest)) = true
      · rw [if_pos hb]; simp
      · rw [if_neg hb]; exact ih rest (c :: acc)

/-- `pySplit` always produces at least one piece. -/
theorem pySplit_ne_nil (s sep : List Char) : pySplit s sep ≠ [] :=
  splitGoF_ne_nil sep s.length s []

/-- Joining the pieces of the split scanner with the separator restores the
accumulator followed by the remaining text. -/
theorem splitGoF_join (sep : List Char) :
    ∀ fuel s acc, s.length ≤ fuel →
      joinSep sep (splitGoF sep fuel s acc) = acc.reverse ++ s := by
  intro fuel
  induction fuel with
  | zero =>
    intro s acc hs
    have h0 : s = [] := List.length_eq_zero.mp (Nat.le_zero.mp hs)
    subst h0
    simp [splitGoF_nil, joinSep]
  | succ fuel ih =>
    intro s acc hs
    cases s with
    | nil => simp [splitGoF_nil, joinSep]
    | cons c rest =>
      rw [splitGoF_succ]
      by_cases hb : (!sep.isEmpty && sep.isPrefixOf (c :: rest)) = true
      · rw [if_pos hb]
        obtain ⟨hb1, hb2⟩ := Bool.and_eq_true_iff.mp hb
        have hsep : sep ≠ [] := by
          intro h
          subst h
          simp at hb1
        have hp : sep <+: c :: rest := by simpa using hb2
        obtain ⟨t, ht⟩ := hp
        have hlen1 : 1 ≤ sep.length := by
          cases sep with
          | nil => exact absurd rfl hsep
          | cons d ds => simp
        have hdt : rest.drop (sep.length - 1) = t := by
          have h1 : (c :: rest).drop sep.length = t := by
            rw [← ht, List.drop_left]
          obtain ⟨m, hm⟩ : ∃ m, sep.length = m + 1 := ⟨sep.length - 1, by omega⟩
          rw [hm, List.drop_succ_cons] at h1
          rw [hm]
          simpa using h1
        have htlen : t.length ≤ fuel := by
          have := congrArg List.length ht
          simp at this hs
          omega
        have hne := splitGoF_ne_nil sep fuel (rest.drop (sep.length - 1)) []
        rw [joinSep_cons_of_ne_nil sep acc.reverse _ hne, hdt, ih t [] htlen]
        simp [← ht]
      · rw [if_neg hb]
        rw [ih rest (c :: acc) (by simpa using hs)]
        simp

/-- Python's invariant `sep.join(s.split(sep)) == s`. -/
theorem pySplit_join (s sep : List Char) : joinSep sep (pySplit s sep) = s := by
  have := splitGoF_join sep s.length s [] (le_refl _)
  simpa [pySplit] using this

/-- The split scanner produces exactly one piece iff the separator does not
occur in the remaining text (for a non-empty separator). -/
theorem splitGoF_length_one (sep : List Char) (hsep : sep ≠ []) :
    ∀ fuel s acc, s.length ≤ fuel →
      ((splitGoF sep fuel s acc).length = 1 ↔ ¬ sep <:+: s) := by
  intro fuel
  induction fuel with
  | zero =>
    intro s acc hs
    have h0 : s = [] := List.length_eq_zero.mp (Nat.le_zero.mp hs)
    subst h0
    simp [splitGoF_nil, hsep]
  | succ fuel ih =>
    intro s acc hs
    cases s with
    | nil => simp [splitGoF_nil, hsep]
    | cons c rest =>
      rw [splitGoF_succ]
      by_cases hb : (!sep.isEmpty && sep.isPrefixOf (c :: rest)) = true
      · rw [if_pos hb]
        obtain ⟨hb1, hb2⟩ := Bool.and_eq_true_iff.mp hb
        have hp : sep <+: c :: rest := by simpa using hb2
        apply iff_of_false
        · have hne := splitGoF_ne_nil sep fuel (rest.drop (sep.length - 1)) []
          simp [List.length_eq_zero, hne]
        · exact not_not_intro hp.isInfix
      · rw [if_neg hb]
        have hnp : ¬ sep <+: c :: rest := by
          intro hp
          apply hb
          have h1 : sep.isEmpty = false := by
            cases sep with
            | nil => exact absurd rfl hsep
            | cons d ds => rfl
          simp [h1, hp]
        rw [ih rest (c :: acc) (by simpa using hs)]
        constructor
        · intro h hinf
          rcases List.infix_cons_iff.mp hinf with h1 | h1
          · exact hnp h1
          · exact h h1
        · intro h hinf
          exact h (List.infix_cons_iff.mpr (Or.inr hinf))

/-- `text.split(sep)` has exactly one piece iff `sep` does not occur in
`text`. -/
theorem pySplit_length_one (s sep : List Char) (hsep : sep ≠ []) :
    (pySplit s sep).length = 1 ↔ ¬ sep <:+: s :=
  splitGoF_length_one sep hsep s.length s [] (le_refl _)


/-- `joinSep` over a snoc: appending one more piece adds one separator. -/
theorem joinSep_snoc (sep x : List Char) (l : List (List Char)) :
    joinSep sep (l ++ [x]) = if l = [] then x else joinSep sep l ++ sep ++ x := by
  induction l with
  | nil => simp [joinSep]
  | cons a l ih =>
    cases l with
    | nil => simp [joinSep]
    | cons b t =>
      have h1 : ((a :: b :: t) ++ [x]) = a :: ((b :: t) ++ [x]) := rfl
      rw [h1, joinSep_cons_of_ne_nil sep a _ (by simp), ih, if_neg (by simp),
        joinSep_cons_of_ne_nil sep a (b :: t) (by simp), if_neg (by simp)]
      simp [List.append_assoc]

/-- Extending the piece list only makes the joined text longer. -/
theorem joinSep_length_mono (sep x : List Char) (l r : List (List Char)) :
    (joinSep sep (l ++ [x])).length ≤ (joinSep sep (l ++ x :: r)).length := by
  induction l with
  | nil =>
    cases r with
    | nil => simp
    | cons b t =>
      rw [List.nil_append, List.nil_append,
        joinSep_cons_of_ne_nil sep x (b :: t) (by simp)]
      simp [joinSep]
  | cons a l ih =>
    rw [List.cons_append, List.cons_append,
      joinSep_cons_of_ne_nil sep a (l ++ [x]) (by simp),
      joinSep_cons_of_ne_nil sep a (l ++ x :: r) (by simp)]
    simp only [List.length_append]
    omega

/-- As long as each piece still fits (the joined size of everything consumed
so far never exceeds `chunk_size`), the accumulation loop of `chunk_text`
never closes a chunk: it just appends every non-empty piece, and the running
size stays the joined length of the accumulated pieces. -/
theorem foldl_no_close (sep : List Char) (size ov : Int) :
    ∀ (splits : List (List Char)) (st : AccState),
      (∀ s ∈ splits, s ≠ []) →
      st.curSize = ((joinSep sep st.cur).length : Int) →
      ((joinSep sep (st.cur ++ splits)).length : Int) ≤ size →
      splits.foldl (accStep sep size ov) st
        = ⟨st.chunks, st.cur ++ splits, ((joinSep sep (st.cur ++ splits)).length : Int)⟩ := by
  intro splits
  induction splits with
  | nil =>
    intro st hseg hsize hle
    cases st
    simp only [List.foldl_nil, List.append_nil]
    simp_all
  | cons s rest ih =>
    intro st hseg hsize hle
    have hs : s ≠ [] := hseg s (by simp)
    have hsnoc : ((joinSep sep (st.cur ++ [s])).length : Int)
        = st.curSize + (if st.cur = [] then (s.length : Int)
            else (sep.length : Int) + (s.length : Int)) := by
      rw [joinSep_snoc, hsize]
      by_cases hc : st.cur = []
      · simp [hc, joinSep]
      · rw [if_neg hc, if_neg hc]
        simp only [List.length_append]
        push_cast
        ring
    have hmono : ((joinSep sep (st.cur ++ [s])).length : Int)
        ≤ ((joinSep sep (st.cur ++ s :: rest)).length : Int) := by
      exact_mod_cast joinSep_length_mono sep s st.cur rest
    have hnoclose : ¬ (st.cur ≠ [] ∧ size < st.curSize
        + (if st.cur = [] then (s.length : Int)
            else (sep.length : Int) + (s.length : Int))) := by
      intro hcl
      have h2 := hcl.2
      rw [if_neg hcl.1] at h2 hsnoc
      omega
    have hstep : accStep sep size ov st s
        = ⟨st.chunks, st.cur ++ [s], st.curSize + (if st.cur = [] then (s.length : Int)
            else (sep.length : Int) + (s.length : Int))⟩ := by
      simp only [accStep, if_neg hs, if_neg hnoclose]
    rw [List.foldl_cons, hstep]
    have hres := ih ⟨st.chunks, st.cur ++ [s], st.curSize + (if st.cur = [] then (s.length : Int)
        else (sep.length : Int) + (s.length : Int))⟩
      (fun x hx => hseg x (by simp [hx]))
      (by simpa using hsnoc.symm)
      (by simpa [List.append_assoc] using hle)
    rw [hres]
    simp [List.append_assoc]

/-- Claim C2 (amended): with zero overlap, rejoining the chunks with the
separator reconstructs the text exactly when every separator-delimited
segment is non-empty and the whole text fits into a single chunk. -/
theorem chunk_text_zero_overlap_rejoin (text sep : List Char) (size : Int)
    (hsep : sep ≠ []) (hs : 0 < size)
    (hseg : ∀ s ∈ pySplit text sep, s ≠ [])
    (hfit : (text.length : Int) ≤ size) :
    ∃ cs, chunk_text text size 0 sep = some cs ∧ joinSep sep cs = text := by
  by_cases htext : text = []
  · subst htext
    exact ⟨[], by simp [chunk_text], rfl⟩
  · by_cases hone : (pySplit text sep).length = 1
    · refine ⟨[text], ?_, by simp [joinSep]⟩
      have h2 := (chunk_text_by_chars_correct text size 0 hs (le_refl 0) hs).2 hfit htext
      simp only [chunk_text]
      rw [if_neg htext, if_neg hsep, if_pos hone, h2]
    · have hne : pySplit text sep ≠ [] := pySplit_ne_nil text sep
      have hfold := foldl_no_close sep size 0 (pySplit text sep) ⟨[], [], 0⟩ hseg
        (by simp [joinSep]) (by simpa [pySplit_join] using hfit)
      refine ⟨sepMode sep size 0 (pySplit text sep), ?_, ?_⟩
      · simp only [chunk_text]
        rw [if_neg htext, if_neg hsep, if_neg hone]
      · simp only [sepMode]
        rw [hfold]
        simp [hne, joinSep, pySplit_join]

/-- Claim C2, counterexample to the original statement: for
`text = "aa\nbb\ncc"`, `chunk_size = 5`, `chunk_overlap = 0`,
`separator = "\n"`, no segment exceeds the chunk size, yet the overlap logic
keeps the trailing segment `"bb"` when it closes the first chunk, so the
rejoined text duplicates it; and for `text = "\na"` the discarded empty
segment makes the rejoined text `"a"`. -/
theorem chunk_text_zero_overlap_rejoin_cex :
    (∀ s ∈ pySplit ['a', 'a', '\n', 'b', 'b', '\n', 'c', 'c'] ['\n'], s.length ≤ 5) ∧
    chunk_text ['a', 'a', '\n', 'b', 'b', '\n', 'c', 'c'] 5 0 ['\n']
      = some [['a', 'a', '\n', 'b', 'b'], ['b', 'b', '\n', 'c', 'c']] ∧
    joinSep ['\n'] [['a', 'a', '\n', 'b', 'b'], ['b', 'b', '\n', 'c', 'c']]
      ≠ ['a', 'a', '\n', 'b', 'b', '\n', 'c', 'c'] ∧
    (∀ s ∈ pySplit ['\n', 'a'] ['\n'], s.length ≤ 5) ∧
    chunk_text ['\n', 'a'] 5 0 ['\n'] = some [['a']] ∧
    joinSep ['\n'] [['a']] ≠ ['\n', 'a'] := by
  decide

/-- Witness for the amended claim C2 at `text = "ab\ncd"`, `chunk_size = 5`. -/
theorem chunk_text_zero_overlap_rejoin_w :
    ∃ cs, chunk_text ['a', 'b', '\n', 'c', 'd'] 5 0 ['\n'] = some cs ∧
      joinSep ['\n'] cs = ['a', 'b', '\n', 'c', 'd'] :=
  chunk_text_zero_overlap_rejoin ['a', 'b', '\n', 'c', 'd'] ['\n'] 5 (by decide)
    (by decide) (by decide) (by decide)

/-- Skipped empty pieces do not change the accumulation loop: folding over the
raw pieces equals folding over the non-empty pieces. -/
theorem foldl_accStep_filter (sep : List Char) (size ov : Int) :
    ∀ (splits : List (List Char)) (st : AccState),
      splits.foldl (accStep sep size ov) st
        = (splits.filter (fun s => !s.isEmpty)).foldl (accStep sep size ov) st := by
  intro splits
  induction splits with
  | nil => intro st; rfl
  | cons s rest ih =>
    intro st
    by_cases hs : s = []
    · subst hs
      rw [List.foldl_cons]
      have h1 : accStep sep size ov st [] = st := by simp [accStep]
      have h2 : (([] : List Char) :: rest).filter (fun s => !s.isEmpty)
          = rest.filter (fun s => !s.isEmpty) := by
        simp [List.filter_cons]
      rw [h1, h2]
      exact ih st
    · have hse : s.isEmpty = false := by
        cases s with
        | nil => exact absurd rfl hs
        | cons c cs => rfl
      have h2 : (s :: rest).filter (fun x => !x.isEmpty)
          = s :: rest.filter (fun x => !x.isEmpty) := by
        simp [List.filter_cons, hse]
      rw [List.foldl_cons, h2, List.foldl_cons]
      exact ih (accStep sep size ov st s)

/-- Claim C3 (amended): `chunk_text` falls back to the character-stride
algorithm exactly when the separator does not occur in the text at all (the
raw split, before discarding empty pieces, has one piece); in separator mode
the empty pieces are then discarded by the accumulation loop. -/
theorem chunk_text_fallback_iff (text sep : List Char) (size ov : Int)
    (htext : text ≠ []) (hsep : sep ≠ []) :
    (¬ sep <:+: text →
      chunk_text text size ov sep = chunk_text_by_chars text size ov) ∧
    (sep <:+: text →
      chunk_text text size ov sep = some (sepMode sep size ov (pySplit text sep))) ∧
    sepMode sep size ov (pySplit text sep)
      = sepMode sep size ov ((pySplit text sep).filter (fun s => !s.isEmpty)) := by
  refine ⟨?_, ?_, ?_⟩
  · intro hni
    have hone : (pySplit text sep).length = 1 := (pySplit_length_one text sep hsep).mpr hni
    simp only [chunk_text]
    rw [if_neg htext, if_neg hsep, if_pos hone]
  · intro hi
    have hone : ¬ (pySplit text sep).length = 1 := by
      rw [pySplit_length_one text sep hsep]
      exact not_not_intro hi
    simp only [chunk_text]
    rw [if_neg htext, if_neg hsep, if_neg hone]
  · simp only [sepMode]
    rw [foldl_accStep_filter sep size ov (pySplit text sep) ⟨[], [], 0⟩]

/-- Claim C3, counterexample to the original statement: `text = "abcd\n"`
consists of one non-empty segment followed by a trailing separator, so the
claim requires the character-stride fallback (hard ceiling 2); but the raw
split is `["abcd", ""]`, of length 2, so the separator algorithm runs and
returns the unsplit chunk `"abcd"` of length 4 > 2. -/
theorem chunk_text_fallback_iff_cex :
    chunk_text ['a', 'b', 'c', 'd', '\n'] 2 0 ['\n'] = some [['a', 'b', 'c', 'd']] ∧
    ((pySplit ['a', 'b', 'c', 'd', '\n'] ['\n']).filter (fun s => !s.isEmpty)).length = 1 ∧
    chunk_text_by_chars ['a', 'b', 'c', 'd', '\n'] 2 0
      = some [['a', 'b'], ['c', 'd'], ['\n']] ∧
    (∃ c ∈ [['a', 'b', 'c', 'd']], 2 < c.length) := by
  decide

/-- Witness for the amended claim C3: `"ab"` has no separator and dispatches
to the character fallback; `"a\nb"` contains the separator and dispatches to
the separator algorithm. -/
theorem chunk_text_fallback_iff_w :
    chunk_text ['a', 'b'] 5 1 ['\n'] = chunk_text_by_chars ['a', 'b'] 5 1 ∧
    chunk_text ['a', '\n', 'b'] 5 1 ['\n']
      = some (sepMode ['\n'] 5 1 (pySplit ['a', '\n', 'b'] ['\n'])) := by
  constructor
  · exact (chunk_text_fallback_iff ['a', 'b'] ['\n'] 5 1 (by decide) (by decide)).1
      (by decide)
  · exact (chunk_text_fallback_iff ['a', '\n', 'b'] ['\n'] 5 1 (by decide)
      (by decide)).2.1 (by decide)

/-- A chat-completion response: the `choices` list, each choice carrying an
optional `message.content`. -/
structure ChatResponse where
  choices : List (Option (List Char))
deriving DecidableEq

/-- `OpenAIProvider.max_retries` (src/data_agent/llm/openai.py line 35). -/
def openai_max_retries : Nat := 3

/-- `OpenAIProvider.retry_delay` (src/data_agent/llm/openai.py line 36). -/
def openai_retry_delay : Nat := 1

/-- The retry loop of `OpenAIProvider.generate` (src/data_agent/llm/openai.py
lines 60-85), over an oracle giving the outcome of each chat-completion call.
Returns the generated text, the number of provider calls made, and the
ordered list of backoff sleeps (`retry_delay * 2 ** attempt`) performed.
The fuel starts at `max_retries`; the last attempt always returns, so the
out-of-fuel branch is unreachable. -/
def genLoop (oracle : Nat → Except Unit ChatResponse) :
    Nat → Nat → List Char × Nat × List Nat
  | 0, _ => ([], 0, [])
  | fuel + 1, attempt =>
    match oracle attempt with
    | .ok r =>
      match r.choices with
      | [] => ([], 1, [])
      | c :: _ => (c.getD [], 1, [])
    | .error _ =>
      if attempt < openai_max_retries - 1 then
        let r := genLoop oracle fuel (attempt + 1)
        (r.1, r.2.1 + 1, openai_retry_delay * 2 ^ attempt :: r.2.2)
      else ([], 1, [])

/-- `OpenAIProvider.generate` (src/data_agent/llm/openai.py lines 38-85). -/
def generate (oracle : Nat → Except Unit ChatResponse) : List Char × Nat × List Nat :=
  genLoop oracle openai_max_retries 0

/-- The retry loop of `OpenAIProvider.generate_with_history`
(src/data_agent/llm/openai.py lines 109-134); the code duplicates the
`generate` loop verbatim. -/
def genHistLoop (oracle : Nat → Except Unit ChatResponse) :
    Nat → Nat → List Char × Nat × List Nat
  | 0, _ => ([], 0, [])
  | fuel + 1, attempt =>
    match oracle attempt with
    | .ok r =>
      match r.choices with
      | [] => ([], 1, [])
      | c :: _ => (c.getD [], 1, [])
    | .error _ =>
      if attempt < openai_max_retries - 1 then
        let r := genHistLoop oracle fuel (attempt + 1)
        (r.1, r.2.1 + 1, openai_retry_delay * 2 ^ attempt :: r.2.2)
      else ([], 1, [])

/-- `OpenAIProvider.generate_with_history` (src/data_agent/llm/openai.py
lines 87-134). -/
def generate_with_history (oracle : Nat → Except Unit ChatResponse) :
    List Char × Nat × List Nat :=
  genHistLoop oracle openai_max_retries 0

/-- `OpenAIProvider.get_embedding` (src/data_agent/llm/openai.py
lines 136-155): one single provider call inside try/except — no retry loop.
`response.data[0]` on an empty data list raises `IndexError`, which the
except clause also turns into the empty vector.  Returns the embedding and
the number of provider calls made. -/
def get_embedding (oracle : Nat → Except Unit (List (List ℚ))) : List ℚ × Nat :=
  match oracle 0 with
  | .ok data =>
    match data with
    | [] => ([], 1)
    | e :: _ => (e, 1)
  | .error _ => ([], 1)

/-- An embedding oracle that fails on the first call and succeeds from the
second call on. -/
def failThenOkEmb : Nat → Except Unit (List (List ℚ)) :=
  fun n => if n = 0 then .error () else .ok [[1]]

/-- A generation oracle that fails on the first call and succeeds from the
second call on. -/
def failThenOkGen : Nat → Except Unit ChatResponse :=
  fun n => if n = 0 then .error () else .ok ⟨[some ['x']]⟩

/-- Claim C5, counterexample: with a provider failing once and succeeding
from the second attempt on, `generate` retries (two calls, one backoff sleep)
and returns the second attempt's text, but `get_embedding` makes exactly one
provider call and returns the empty vector even though a retry would have
succeeded — `get_embedding` has no retry loop at all. -/
theorem provider_retry_policy_cex :
    get_embedding failThenOkEmb = ([], 1) ∧
    failThenOkEmb 1 = .ok [[1]] ∧
    generate failThenOkGen = (['x'], 2, [1]) :=
  ⟨rfl, rfl, rfl⟩

/-- Claim C5 (amended): `generate` and `generate_with_history` retry failed
provider calls up to 3 attempts with exponential backoff (sleeps
`retry_delay * 2 ** attempt`, i.e. 1 then 2 seconds) and return the empty
string after exhausting the retries; `get_embedding` instead performs exactly
one provider call, and degrades to the empty vector when that call fails,
without retrying. -/
theorem provider_retry_policy (og oh : Nat → Except Unit ChatResponse)
    (oe : Nat → Except Unit (List (List ℚ))) :
    ((∀ n, og n = .error ()) → generate og = ([], 3, [1, 2])) ∧
    ((∀ n, oh n = .error ()) → generate_with_history oh = ([], 3, [1, 2])) ∧
    (get_embedding oe).2 = 1 ∧
    (oe 0 = .error () → get_embedding oe = ([], 1)) := by
  refine ⟨?_, ?_, ?_, ?_⟩
  · intro h
    simp [generate, genLoop, h 0, h 1, h 2, openai_max_retries, openai_retry_delay]
  · intro h
    simp [generate_with_history, genHistLoop, h 0, h 1, h 2, openai_max_retries,
      openai_retry_delay]
  · rcases h : oe 0 with e | data
    · simp [get_embedding, h]
    · cases data <;> simp [get_embedding, h]
  · intro h
    simp [get_embedding, h]

/-- The oracle on which every provider call fails. -/
def allFailGen : Nat → Except Unit ChatResponse := fun _ => .error ()

/-- The embedding oracle on which every provider call fails. -/
def allFailEmb : Nat → Except Unit (List (List ℚ)) := fun _ => .error ()

/-- Witness for the amended claim C5 on the always-failing provider. -/
theorem provider_retry_policy_w :
    generate allFailGen = ([], 3, [1, 2]) ∧
    generate_with_history allFailGen = ([], 3, [1, 2]) ∧
    (get_embedding allFailEmb).2 = 1 ∧
    get_embedding allFailEmb = ([], 1) := by
  obtain ⟨h1, h2, h3, h4⟩ := provider_retry_policy allFailGen allFailGen allFailEmb
  exact ⟨h1 (fun n => rfl), h2 (fun n => rfl), h3, h4 rfl⟩

/-- The vector-store calls a retriever mutation can make. -/
inductive StoreCall
  | addTexts
  | persistStore
  | deleteStore
deriving DecidableEq

/-- `DocumentRetriever.add_documents` (src/data_agent/rag/retriever.py
lines 86-125): without a store return `[]`; otherwise call `add_texts`
(outcome `addRes`), then `persist` (outcome `persistRes`), with any exception
caught and turned into `[]`.  Returns the ids together with the ordered log
of store calls made. -/
def add_documents (hasStore : Bool) (addRes : Except Unit (List (List Char)))
    (persistRes : Except Unit Bool) : List (List Char) × List StoreCall :=
  if hasStore = false then ([], [])
  else
    match addRes with
    | .error _ => ([], [StoreCall.addTexts])
    | .ok ids =>
      match persistRes with
      | .error _ => ([], [StoreCall.addTexts, StoreCall.persistStore])
      | .ok _ => (ids, [StoreCall.addTexts, StoreCall.persistStore])

/-- `DocumentRetriever.delete_documents` (src/data_agent/rag/retriever.py
lines 127-157): without a store return `False`; otherwise call `delete`
(outcome `delRes`) and call `persist` only under `if success:`; any exception
is caught and turned into `False`. -/
def delete_documents (hasStore : Bool) (delRes : Except Unit Bool)
    (persistRes : Except Unit Bool) : Bool × List StoreCall :=
  if hasStore = false then (false, [])
  else
    match delRes with
    | .error _ => (false, [StoreCall.deleteStore])
    | .ok success =>
      if success then
        match persistRes with
        | .error _ => (false, [StoreCall.deleteStore, StoreCall.persistStore])
        | .ok _ => (success, [StoreCall.deleteStore, StoreCall.persistStore])
      else (success, [StoreCall.deleteStore])

/-- Claim C7: whenever a store is configured and `add_texts` returns (rather
than raising), the store-call log of `add_documents` is exactly
`[add_texts, persist]` — persist is invoked after the delegation and before
returning, whatever persist itself does; and `delete_documents` invokes
`persist` if and only if the underlying delete reported success (`True`). -/
theorem retriever_persist_policy (hasStore : Bool)
    (addRes : Except Unit (List (List Char))) (delRes p1 p2 : Except Unit Bool) :
    (hasStore = true → ∀ ids, addRes = .ok ids →
      (add_documents hasStore addRes p1).2
        = [StoreCall.addTexts, StoreCall.persistStore]) ∧
    (StoreCall.persistStore ∈ (delete_documents hasStore delRes p2).2 ↔
      hasStore = true ∧ delRes = .ok true) := by
  constructor
  · intro hs ids haddRes
    subst hs haddRes
    cases p1 <;> simp [add_documents]
  · cases hasStore with
    | false => simp [delete_documents]
    | true =>
      rcases delRes with e | b
      · simp [delete_documents]
      · cases b with
        | false => simp [delete_documents]
        | true =>
          rcases p2 with e | c <;> simp [delete_documents]

/-- Witness for claim C7 at a configured store with successful add, delete
and persist. -/
theorem retriever_persist_policy_w :
    (add_documents true (.ok [['i']]) (.ok true)).2
      = [StoreCall.addTexts, StoreCall.persistStore] ∧
    (StoreCall.persistStore ∈ (delete_documents true (.ok true) (.ok true)).2 ↔
      true = true ∧ (Except.ok true : Except Unit Bool) = .ok true) := by
  obtain ⟨h1, h2⟩ :=
    retriever_persist_policy true (.ok [['i']]) (.ok true) (.ok true) (.ok true)
  exact ⟨h1 rfl [['i']] rfl, h2⟩

/-- Sum of squares of a vector: the square of `np.linalg.norm(v)`. -/
def sumSq (v : List ℚ) : ℚ := (v.map (fun x => x * x)).sum

/-- `np.dot(v1, v2)` on vectors of equal length. -/
def dotQ (a b : List ℚ) : ℚ := (List.zipWith (fun x y => x * y) a b).sum

/-- Componentwise squared difference sum: the square of
`np.linalg.norm(v1 - v2)`. -/
def diffSq (a b : List ℚ) : ℚ :=
  (List.zipWith (fun x y => (x - y) * (x - y)) a b).sum

open Classical in
/-- `cosine_similarity` (src/data_agent/rag/embeddings.py lines 72-103).
Vector components are exact rationals (finite floats are rationals); the
value is a real number.  The first guard mirrors line 83
(`not vec1 or not vec2 or len(vec1) != len(vec2)`), the second mirrors
line 97 (`norm_v1 == 0 or norm_v2 == 0`). -/
noncomputable def cosine_similarity (vec1 vec2 : List ℚ) : ℝ :=
  if vec1 = [] ∨ vec2 = [] ∨ vec1.length ≠ vec2.length then 0
  else if Real.sqrt ((sumSq vec1 : ℚ) : ℝ) = 0 ∨ Real.sqrt ((sumSq vec2 : ℚ) : ℝ) = 0 then 0
  else ((dotQ vec1 vec2 : ℚ) : ℝ)
    / (Real.sqrt ((sumSq vec1 : ℚ) : ℝ) * Real.sqrt ((sumSq vec2 : ℚ) : ℝ))

/-- `euclidean_distance` (src/data_agent/rag/embeddings.py lines 106-129):
`float('inf')` is the top element of the extended reals. -/
noncomputable def euclidean_distance (vec1 vec2 : List ℚ) : EReal :=
  if vec1 = [] ∨ vec2 = [] ∨ vec1.length ≠ vec2.length then ⊤
  else ((Real.sqrt ((diffSq vec1 vec2 : ℚ) : ℝ) : ℝ) : EReal)

/-- The squared difference sum is symmetric. -/
theorem diffSq_comm : ∀ a b : List ℚ, diffSq a b = diffSq b a := by
  intro a
  induction a with
  | nil => intro b; cases b <;> simp [diffSq]
  | cons x xs ih =>
    intro b
    cases b with
    | nil => simp [diffSq]
    | cons y ys =>
      simp only [diffSq, List.zipWith_cons_cons, List.sum_cons] at ih ⊢
      rw [show (x - y) * (x - y) = (y - x) * (y - x) by ring]
      have := ih ys
      simp only [diffSq] at this
      rw [this]

/-- Claim C8: `cosine_similarity` returns exactly 0 on every degenerate input
(empty vector, dimension mismatch, or a zero norm — equivalently a zero sum
of squares); `euclidean_distance` returns `+infinity` when a vector is empty
or the dimensions differ; and `euclidean_distance` is symmetric.  All the
functions are total: no degenerate case raises. -/
theorem similarity_degenerate (a b : List ℚ) :
    ((a = [] ∨ b = [] ∨ a.length ≠ b.length ∨ sumSq a = 0 ∨ sumSq b = 0) →
      cosine_similarity a b = 0) ∧
    ((a = [] ∨ b = [] ∨ a.length ≠ b.length) → euclidean_distance a b = ⊤) ∧
    euclidean_distance a b = euclidean_distance b a := by
  refine ⟨?_, ?_, ?_⟩
  · intro h
    unfold cosine_similarity
    by_cases hg : a = [] ∨ b = [] ∨ a.length ≠ b.length
    · rw [if_pos hg]
    · rw [if_neg hg]
      have hz : sumSq a = 0 ∨ sumSq b = 0 := by tauto
      have hs : Real.sqrt ((sumSq a : ℚ) : ℝ) = 0 ∨ Real.sqrt ((sumSq b : ℚ) : ℝ) = 0 := by
        rcases hz with hz | hz
        · left
          rw [hz]
          simp
        · right
          rw [hz]
          simp
      rw [if_pos hs]
  · intro h
    unfold euclidean_distance
    rw [if_pos h]
  · have hsymm : (b = [] ∨ a = [] ∨ b.length ≠ a.length)
        ↔ (a = [] ∨ b = [] ∨ a.length ≠ b.length) := by
      constructor
      · rintro (h | h | h)
        · exact Or.inr (Or.inl h)
        · exact Or.inl h
        · exact Or.inr (Or.inr (Ne.symm h))
      · rintro (h | h | h)
        · exact Or.inr (Or.inl h)
        · exact Or.inl h
        · exact Or.inr (Or.inr (Ne.symm h))
    unfold euclidean_distance
    by_cases hg : a = [] ∨ b = [] ∨ a.length ≠ b.length
    · rw [if_pos hg, if_pos (hsymm.mpr hg)]
    · rw [if_neg hg, if_neg (fun hc => hg (hsymm.mp hc)), diffSq_comm]

/-- Witness for claim C8 at concrete degenerate and symmetric inputs. -/
theorem similarity_degenerate_w :
    cosine_similarity [(1 : ℚ)] [] = 0 ∧
    euclidean_distance [(1 : ℚ)] [] = ⊤ ∧
    euclidean_distance [(1 : ℚ)] [(2 : ℚ)] = euclidean_distance [(2 : ℚ)] [(1 : ℚ)] := by
  obtain ⟨h1, h2, _⟩ := similarity_degenerate [(1 : ℚ)] []
  exact ⟨h1 (Or.inr (Or.inl rfl)), h2 (Or.inr (Or.inl rfl)),
    (similarity_degenerate [(1 : ℚ)] [(2 : ℚ)]).2.2⟩

/-- One chunk record produced by the document processor: the chunk text and
the `chunk_index` / `chunk_count` metadata fields attached at
src/data_agent/rag/document_processor.py lines 110-118. -/
structure DocChunk where
  text : List Char
  chunk_index : Nat
  chunk_count : Nat
deriving DecidableEq

/-- `DocumentProcessor._process_text_file` (src/data_agent/rag/
document_processor.py lines 70-125), applied to a file whose content was read
as `content`: chunk the content with `chunk_text` (the processor passes its
`chunk_size` / `chunk_overlap` and leaves the default separator `"\n"`), then
attach `chunk_index = i` and `chunk_count = len(chunks)` per enumerated
chunk; any exception — including one raised by `chunk_text` — is caught and
yields `[]`. -/
def process_text_file (content : List Char) (size ov : Int) : List DocChunk :=
  match chunk_text content size ov ['\n'] with
  | none => []
  | some cs => cs.enum.map (fun p => ⟨p.2, p.1, cs.length⟩)

/-- The per-file accumulation of `DocumentProcessor.process_directory`
(src/data_agent/rag/document_processor.py lines 127-190): process each
discovered file and append its chunk records in discovery order. -/
def process_directory (files : List (List Char)) (size ov : Int) : List DocChunk :=
  (files.map (fun f => process_text_file f size ov)).flatten

/-- Claim C9: every chunk record of a processed file satisfies
`chunk_index < chunk_count`; the records appear in chunk-index order
(indices are `0, 1, ...` in order); `chunk_count` is the number of chunks the
chunker produced for that file alone, also within a processed directory; and
an empty source document yields zero records. -/
theorem process_file_chunk_metadata (content : List Char) (size ov : Int)
    (files : List (List Char)) :
    (∀ d ∈ process_text_file content size ov, d.chunk_index < d.chunk_count) ∧
    ((process_text_file content size ov).map (fun d => d.chunk_index)
      = List.range (process_text_file content size ov).length) ∧
    (∀ cs, chunk_text content size ov ['\n'] = some cs →
      ∀ d ∈ process_text_file content size ov, d.chunk_count = cs.length) ∧
    (content = [] → process_text_file content size ov = []) ∧
    (∀ d ∈ process_directory files size ov, ∃ f ∈ files,
      d ∈ process_text_file f size ov ∧
      (∀ cs, chunk_text f size ov ['\n'] = some cs → d.chunk_count = cs.length)) := by
  refine ⟨?_, ?_, ?_, ?_, ?_⟩
  · intro d hd
    unfold process_text_file at hd
    rcases hc : chunk_text content size ov ['\n'] with _ | cs
    · rw [hc] at hd
      simp at hd
    · rw [hc] at hd
      obtain ⟨p, hp, rfl⟩ := List.mem_map.mp hd
      have hfst : p.1 ∈ List.range cs.length := by
        rw [← List.enum_map_fst cs]
        exact List.mem_map_of_mem Prod.fst hp
      simpa using List.mem_range.mp hfst
  · unfold process_text_file
    rcases hc : chunk_text content size ov ['\n'] with _ | cs
    · simp
    · rw [List.map_map]
      have h1 : ((fun d => d.chunk_index) ∘ fun p => (⟨p.2, p.1, cs.length⟩ : DocChunk))
          = Prod.fst := rfl
      rw [h1, List.enum_map_fst]
      simp
  · intro cs hcs d hd
    unfold process_text_file at hd
    rw [hcs] at hd
    obtain ⟨p, hp, rfl⟩ := List.mem_map.mp hd
    rfl
  · intro h
    subst h
    rfl
  · intro d hd
    unfold process_directory at hd
    obtain ⟨l, hl, hdl⟩ := List.mem_flatten.mp hd
    obtain ⟨f, hf, rfl⟩ := List.mem_map.mp hl
    refine ⟨f, hf, hdl, ?_⟩
    intro cs hcs
    unfold process_text_file at hdl
    rw [hcs] at hdl
    obtain ⟨p, hp, rfl⟩ := List.mem_map.mp hdl
    rfl

/-- Witness for claim C9 at the two-file directory
`["ab\ncd\nef", ""]` with `chunk_size = 5`, `chunk_overlap = 0`. -/
theorem process_file_chunk_metadata_w :
    (∀ d ∈ process_text_file ['a', 'b', '\n', 'c', 'd'] 5 0,
      d.chunk_index < d.chunk_count) ∧
    ((process_text_file ['a', 'b', '\n', 'c', 'd'] 5 0).map (fun d => d.chunk_index)
      = List.range (process_text_file ['a', 'b', '\n', 'c', 'd'] 5 0).length) ∧
    (∀ d ∈ process_text_file ['a', 'b', '\n', 'c', 'd'] 5 0, d.chunk_count = 1) ∧
    process_text_file [] 5 0 = [] ∧
    (∀ d ∈ process_directory [['a', 'b', '\n', 'c', 'd'], []] 5 0,
      ∃ f ∈ [['a', 'b', '\n', 'c', 'd'], []], d ∈ process_text_file f 5 0) := by
  obtain ⟨h1, h2, h3, h4, h5⟩ :=
    process_file_chunk_metadata ['a', 'b', '\n', 'c', 'd'] 5 0
      [['a', 'b', '\n', 'c', 'd'], []]
  refine ⟨h1, h2, ?_, (process_file_chunk_metadata [] 5 0 []).2.2.2.1 rfl, ?_⟩
  · intro d hd
    exact h3 [['a', 'b', '\n', 'c', 'd']] (by decide) d hd
  · intro d hd
    obtain ⟨f, hf, hdf, _⟩ := h5 d hd
    exact ⟨f, hf, hdf⟩

/-- A metadata mapping: an association list of string keys and values. -/
abbrev Meta := List (List Char × List Char)

/-- An equality filter over metadata fields (a Chroma `where` clause). -/
abbrev MetaFilter := List (List Char × List Char)

/-- The raw reply of `collection.query` as read by `similarity_search`
(src/data_agent/rag/vector_store/chroma.py lines 150-160): the first query's
documents, metadatas, ids and distances.  A `none` field models a falsy value
(`None`, or a missing/empty first row), for which the code falls back to a
default instead of indexing. -/
structure ChromaQueryReply where
  documents : Option (List (List Char))
  metadatas : Option (List Meta)
  ids : Option (List (List Char))
  distances : Option (List ℚ)
deriving DecidableEq

/-- A formatted query result (src/data_agent/rag/vector_store/chroma.py
lines 155-160): the `text`, `metadata`, `id` and `score` fields. -/
structure QueryResult where
  text : List Char
  metadata : Meta
  rid : Option (List Char)
  score : Option ℚ
deriving DecidableEq

/-- Python truthiness of an optional list: `None` and the empty list are
falsy. -/
def truthyList : Option (List α) → Option (List α)
  | some (x :: xs) => some (x :: xs)
  | _ => none

/-- `results["metadatas"][0][i] if results["metadatas"] and
results["metadatas"][0] else {}` — `none` models the `IndexError` of an
out-of-range index. -/
def fmtMeta (metas : Option (List Meta)) (i : Nat) : Option Meta :=
  match truthyList metas with
  | none => some []
  | some l => l.get? i

/-- `results["ids"][0][i] if ... else None`. -/
def fmtId (ids : Option (List (List Char))) (i : Nat) : Option (Option (List Char)) :=
  match truthyList ids with
  | none => some none
  | some l => (l.get? i).map some

/-- `results["distances"][0][i] if ... else None`. -/
def fmtScore (dists : Option (List ℚ)) (i : Nat) : Option (Option ℚ) :=
  match truthyList dists with
  | none => some none
  | some l => (l.get? i).map some

/-- The result-formatting loop of `similarity_search`
(src/data_agent/rag/vector_store/chroma.py lines 151-160), walking the
documents with their index; a `none` result models an `IndexError`, which the
try/except of `similarity_search` catches. -/
def fmtGo (metas : Option (List Meta)) (ids : Option (List (List Char)))
    (dists : Option (List ℚ)) : Nat → List (List Char) → Option (List QueryResult)
  | _, [] => some []
  | i, d :: ds =>
    (fmtMeta metas i).bind fun m =>
      (fmtId ids i).bind fun idv =>
        (fmtScore dists i).bind fun sc =>
          (fmtGo metas ids dists (i + 1) ds).bind fun rest =>
            some (⟨d, m, idv, sc⟩ :: rest)

/-- `ChromaVectorStore.similarity_search` (src/data_agent/rag/vector_store/
chroma.py lines 126-165) over a `collection.query` oracle: on a backend
exception, a falsy document list, or an indexing error while formatting,
return `[]`; otherwise return the formatted results in the backend's
order. -/
def similarity_search
    (queryFn : List Char → Nat → Option MetaFilter → Except Unit ChromaQueryReply)
    (query : List Char) (k : Nat) (filter : Option MetaFilter) : List QueryResult :=
  match queryFn query k filter with
  | .error _ => []
  | .ok r =>
    match truthyList r.documents with
    | none => []
    | some docs =>
      match fmtGo r.metadatas r.ids r.distances 0 docs with
      | none => []
      | some rs => rs

/-- The Python idiom `top_k = top_k or self.top_k`
(src/data_agent/rag/retriever.py line 67): `None` and `0` are falsy and fall
back to the configured default. -/
def pyOrNat (o : Option Nat) (d : Nat) : Nat :=
  match o with
  | none => d
  | some t => if t = 0 then d else t

/-- `DocumentRetriever.retrieve` (src/data_agent/rag/retriever.py
lines 46-84): `[]` when no store is configured; otherwise delegate to the
store's `similarity_search` with `top_k or self.top_k` requested results
(exceptions are caught and give `[]`, here already absorbed inside
`similarity_search`). -/
def retrieve
    (store : Option (List Char → Nat → Option MetaFilter → Except Unit ChromaQueryReply))
    (selfTopK : Nat) (query : List Char) (top_k : Option Nat)
    (filter : Option MetaFilter) : List QueryResult :=
  match store with
  | none => []
  | some qf => similarity_search qf query (pyOrNat top_k selfTopK) filter

/-- The formatting loop preserves the number and the order of the backend's
documents: result `i` carries document `i` as its text. -/
theorem fmtGo_spec (metas : Option (List Meta)) (ids : Option (List (List Char)))
    (dists : Option (List ℚ)) :
    ∀ (ds : List (List Char)) (i : Nat) (rs : List QueryResult),
      fmtGo metas ids dists i ds = some rs →
      rs.length = ds.length ∧ rs.map (fun r => r.text) = ds := by
  intro ds
  induction ds with
  | nil =>
    intro i rs h
    simp only [fmtGo, Option.some.injEq] at h
    subst h
    simp
  | cons d ds ih =>
    intro i rs h
    simp only [fmtGo, Option.bind_eq_some] at h
    obtain ⟨m, hm, idv, hi, sc, hs, rest, hr, hcons⟩ := h
    obtain ⟨h1, h2⟩ := ih (i + 1) rest hr
    obtain rfl : (⟨d, m, idv, sc⟩ : QueryResult) :: rest = rs := Option.some.injEq _ _ ▸ hcons
    simp [h1, h2]

/-- A backend that replies with a single document for every requested `k`
(as Chroma does for a one-document collection). -/
def oneDocQuery : List Char → Nat → Option MetaFilter → Except Unit ChromaQueryReply :=
  fun _ _ _ => .ok ⟨some [['h']], none, none, none⟩

/-- Claim C6, counterexample: with the caller passing `top_k = 0`, the idiom
`top_k = top_k or self.top_k` treats `0` as absent and requests the
configured default (4) from the backend, so `retrieve` returns one result
instead of at most zero. -/
theorem retrieve_top_k_cex :
    (retrieve (some oneDocQuery) 4 ['q'] (some 0) none).length = 1 ∧
    ¬ (retrieve (some oneDocQuery) 4 ['q'] (some 0) none).length ≤ 0 := by
  constructor
  · rfl
  · decide

/-- Claim C6 (amended): `retrieve` returns the empty sequence when no store
is configured or the backend raises; when a store is configured it requests
`top_k or self.top_k` results — the provided `top_k` when it is non-zero,
the configured default when `top_k` is omitted or `0` — returns at most that
many results (given the spec's backend bound `k`), and passes the backend's
results through in their original order without re-sorting. -/
theorem retrieve_spec
    (qf : List Char → Nat → Option MetaFilter → Except Unit ChromaQueryReply)
    (selfTopK : Nat) (query : List Char) (top_k : Option Nat)
    (filter : Option MetaFilter)
    (hqb : ∀ q k f r, qf q k f = .ok r →
      ∀ ds, truthyList r.documents = some ds → ds.length ≤ k) :
    retrieve none selfTopK query top_k filter = [] ∧
    (retrieve (some qf) selfTopK query top_k filter).length ≤ pyOrNat top_k selfTopK ∧
    (∀ t, top_k = some t → t ≠ 0 → pyOrNat top_k selfTopK = t) ∧
    (top_k = some 0 ∨ top_k = none → pyOrNat top_k selfTopK = selfTopK) ∧
    (qf query (pyOrNat top_k selfTopK) filter = .error () →
      retrieve (some qf) selfTopK query top_k filter = []) ∧
    (∀ r ds rs, qf query (pyOrNat top_k selfTopK) filter = .ok r →
      truthyList r.documents = some ds →
      fmtGo r.metadatas r.ids r.distances 0 ds = some rs →
      retrieve (some qf) selfTopK query top_k filter = rs ∧
        rs.map (fun x => x.text) = ds) := by
  refine ⟨rfl, ?_, ?_, ?_, ?_, ?_⟩
  · rcases hq : qf query (pyOrNat top_k selfTopK) filter with e | r
    · simp [retrieve, similarity_search, hq]
    · rcases hd : truthyList r.documents with _ | ds
      · simp [retrieve, similarity_search, hq, hd]
      · rcases hf : fmtGo r.metadatas r.ids r.distances 0 ds with _ | rs
        · simp [retrieve, similarity_search, hq, hd, hf]
        · have h1 := (fmtGo_spec r.metadatas r.ids r.distances ds 0 rs hf).1
          have h2 := hqb query (pyOrNat top_k selfTopK) filter r hq ds hd
          have h3 : retrieve (some qf) selfTopK query top_k filter = rs := by
            simp [retrieve, similarity_search, hq, hd, hf]
          rw [h3]
          omega
  · intro t ht hnz
    subst ht
    simp [pyOrNat, hnz]
  · rintro (h | h) <;> subst h <;> rfl
  · intro h
    simp [retrieve, similarity_search, h]
  · intro r ds rs hq hd hf
    refine ⟨?_, (fmtGo_spec r.metadatas r.ids r.distances ds 0 rs hf).2⟩
    simp [retrieve, similarity_search, hq, hd, hf]

/-- A backend respecting the spec's bound: at most `k` documents for a
requested `k`. -/
def boundedQuery : List Char → Nat → Option MetaFilter → Except Unit ChromaQueryReply :=
  fun _ k _ => .ok ⟨some (if k = 0 then [] else [['h']]), none, none, none⟩

/-- Witness for the amended claim C6 at `selfTopK = 4`, `top_k = 2`. -/
theorem retrieve_spec_w :
    retrieve none 4 ['q'] (some 2) none = [] ∧
    (retrieve (some boundedQuery) 4 ['q'] (some 2) none).length ≤ pyOrNat (some 2) 4 ∧
    pyOrNat (some 2) 4 = 2 := by
  have hb : ∀ q k f r, boundedQuery q k f = .ok r →
      ∀ ds, truthyList r.documents = some ds → ds.length ≤ k := by
    intro q k f r hr ds hds
    have hr2 : r = ⟨some (if k = 0 then [] else [['h']]), none, none, none⟩ := by
      simpa [boundedQuery] using hr.symm
    subst hr2
    rcases k with _ | k
    · simp [truthyList] at hds
    · simp only [truthyList, if_neg (Nat.succ_ne_zero k)] at hds
      obtain rfl : [['h']] = ds := Option.some.injEq _ _ ▸ hds
      simp
  obtain ⟨h1, h2, h3, _, _, _⟩ := retrieve_spec boundedQuery 4 ['q'] (some 2) none hb
  exact ⟨h1, h2, h3 2 rfl (by decide)⟩

/-- A stored entry of the modelled Chroma collection: its id and metadata. -/
structure StoreEntry where
  sid : List Char
  meta : Meta
deriving DecidableEq

/-- Whether an entry's metadata matches a `where` filter.  Modelled from the
spec: the filter "is an equality predicate over metadata fields" — every
filter key must map to the given value. -/
def metaMatches (m : Meta) (f : MetaFilter) : Bool :=
  f.all (fun kv => m.lookup kv.1 == some kv.2)

/-- `ChromaVectorStore.delete` (src/data_agent/rag/vector_store/chroma.py
lines 167-191) acting on a modelled collection state.  `if ids:` is the
truthy branch, taken only for a non-empty list, and it deletes by id without
reading the filter; `elif filter:` likewise requires a non-empty filter, and
first resolves the matching ids via `collection.get(where=filter)` and
deletes by those ids only when some id matched; every branch returns
`True`. -/
def chroma_delete (st : List StoreEntry) (ids : Option (List (List Char)))
    (filter : Option MetaFilter) : List StoreEntry × Bool :=
  match ids with
  | some (x :: xs) => (st.filter (fun e => !((x :: xs).contains e.sid)), true)
  | _ =>
    match filter with
    | some (kv :: kvs) =>
      let matched := (st.filter (fun e => metaMatches e.meta (kv :: kvs))).map
        (fun e => e.sid)
      if matched = [] then (st, true)
      else (st.filter (fun e => !(matched.contains e.sid)), true)
    | _ => (st, true)

/-- Claim C10, counterexample: with `ids = []` (an empty list is supplied but
falsy) and a matching filter, `delete` takes the `elif filter:` branch and
deletes the matching entry — the filter is *not* ignored, although both `ids`
and a filter were supplied, and id-based deletion of `[]` would have deleted
nothing. -/
theorem chroma_delete_cex :
    chroma_delete [⟨['e'], [(['s'], ['x'])]⟩] (some []) (some [(['s'], ['x'])])
      = ([], true) ∧
    ([] : List StoreEntry) ≠ [⟨['e'], [(['s'], ['x'])]⟩] := by
  decide

/-- Claim C10 (amended): `delete` with `ids = None` and `filter = None`
deletes nothing and returns `True` (vacuous success); when a *non-empty* ids
list and a filter are both supplied, only id-based deletion is performed and
the filter is ignored; an empty ids list is falsy and is treated as absent,
falling through to filter-based deletion. -/
theorem chroma_delete_spec (st : List StoreEntry) (l : List (List Char))
    (f : MetaFilter) :
    chroma_delete st none none = (st, true) ∧
    (l ≠ [] → chroma_delete st (some l) (some f) = chroma_delete st (some l) none) ∧
    chroma_delete st (some []) (some f) = chroma_delete st none (some f) := by
  refine ⟨rfl, ?_, rfl⟩
  intro hl
  cases l with
  | nil => exact absurd rfl hl
  | cons x xs => rfl

/-- Witness for the amended claim C10 at a one-entry store. -/
theorem chroma_delete_spec_w :
    chroma_delete [⟨['e'], []⟩] none none = ([⟨['e'], []⟩], true) ∧
    chroma_delete [⟨['e'], []⟩] (some [['e']]) (some [(['k'], ['v'])])
      = chroma_delete [⟨['e'], []⟩] (some [['e']]) none := by
  obtain ⟨h1, h2, _⟩ :=
    chroma_delete_spec [⟨['e'], []⟩] [['e']] [(['k'], ['v'])]
  exact ⟨h1, h2 (by decide)⟩
